import Mathlib

/-!
Verification of the Knover decoding engine (`knover/modules/generator.py`) and the
NSP reader negative-sample mixer (`knover/data/nsp_reader.py`), shallowly embedded
in Lean.  Float arithmetic of the source is modelled exactly over `ℝ` (score
pipeline, which takes logarithms) and over `ℚ` (logit penalties, distributions,
selection), with the float literals `1e-9`, `1e3`, `1e9` rendered as the exact
rationals `1 / 10 ^ 9`, `1000`, `10 ^ 9`.
-/

namespace Knover

/-! ### Score accumulation pipeline (generator.py, lines 220-244) -/

/-- Indicator of the small-probability guard (line 225):
`small_prob_cond = cast(topk_scores < 1e-9)`. -/
noncomputable def smallProbCond (p : ℝ) : ℝ :=
  if p < 1 / 10 ^ 9 then 1 else 0

/-- Clamp applied before the logarithm (line 226):
`topk_scores = topk_scores * (1 - small_prob_cond) + 1e-9 * small_prob_cond`. -/
noncomputable def clampProb (p : ℝ) : ℝ :=
  p * (1 - smallProbCond p) + (1 / 10 ^ 9) * smallProbCond p

/-- Cumulative-score update policy (lines 230-240).  `pre_len` is the value of
`step_idx` before the in-place increment at line 221 (`pre_len = cast(step_idx)`)
and `cur_len = pre_len + 1` is its value after.  The branch order of the source is
kept: `length_average` first, then `length_penalty > 0`, else plain addition.
The length-penalty branch is `layers.pow((5 + len) / 6, length_penalty)`. -/
noncomputable def accuScore (length_average : Bool) (length_penalty topk_score pre_score pre_len : ℝ) : ℝ :=
  let cur_len := pre_len + 1
  if length_average then
    (topk_score + pre_score * pre_len) / cur_len
  else if 0 < length_penalty then
    let pre_lp := ((5 + pre_len) / 6) ^ length_penalty
    let cur_lp := ((5 + cur_len) / 6) ^ length_penalty
    (topk_score + pre_score * pre_lp) / cur_lp
  else
    topk_score + pre_score

/-- Modelled from the spec (§4.2): the Wu-style length penalty
`lp(L) = ((5 + L) / 6) ^ length_penalty`. -/
noncomputable def lengthPenaltyFactor_spec (length_penalty L : ℝ) : ℝ :=
  ((5 + L) / 6) ^ length_penalty

/-- Modelled from the spec (§4.2): given previous cumulative score `S_prev`,
previous length `L_prev`, new token log-probability `ℓ` and `L_cur = L_prev + 1`:
length-averaged `(ℓ + S_prev·L_prev) / L_cur` when `length_average`; otherwise
length-penalized `(ℓ + S_prev·lp(L_prev)) / lp(L_cur)` when `length_penalty > 0`;
otherwise unnormalized `ℓ + S_prev` (priority: average > penalty > none). -/
noncomputable def scoreUpdate_spec (length_average : Bool) (length_penalty l S_prev L_prev : ℝ) : ℝ :=
  let L_cur := L_prev + 1
  if length_average then
    (l + S_prev * L_prev) / L_cur
  else if 0 < length_penalty then
    (l + S_prev * lengthPenaltyFactor_spec length_penalty L_prev) /
      lengthPenaltyFactor_spec length_penalty L_cur
  else
    l + S_prev

/-- Whole per-candidate score update of one decoding step (lines 225-244):
clamp the selected probability, take its logarithm (line 227), apply the
accumulation policy (lines 230-240), freeze finished candidates elementwise
(lines 241-243: `accu * (1 - is_finished) + pre_scores * is_finished`) and
finally overwrite small-probability slots with `-1e9` (line 244). -/
noncomputable def stepAccuScore (length_average : Bool)
    (length_penalty p pre_scores is_finished pre_len : ℝ) : ℝ :=
  let small := smallProbCond p
  let topk_score := Real.log (clampProb p)
  let accu := accuScore length_average length_penalty topk_score pre_scores pre_len
  let x := accu * (1 - is_finished)
  let y := pre_scores * is_finished
  (x + y) * (1 - small) - 10 ^ 9 * small

/-! ### Logit penalties (generator.py, lines 130-132 and 163-174) -/

/-- End-of-sequence penalty vector (lines 130-132): zero everywhere except
`-1e9` at the end-of-sequence token id. -/
def eosPenaltyVec (eos_id : ℕ) : ℕ → ℚ :=
  fun t => if t = eos_id then -(10 ^ 9) else 0

/-- Minimum-length stage (lines 163-171): while `step_idx < min_len` the
`eos_penalty` vector is added to the logits (`min_len_penalty`), otherwise the
logits are returned unchanged (`no_penalty`). -/
def applyMinLenPenalty (step_idx min_len eos_id : ℕ) (logits : ℕ → ℚ) : ℕ → ℚ :=
  if step_idx < min_len then fun t => logits t + eosPenaltyVec eos_id t
  else logits

/-- Finished-candidate stage (lines 173-174):
`logits - is_finished * eos_penalty` with `is_finished ∈ {0, 1}` as a float. -/
def applyFinishedBoost (is_finished : ℚ) (eos_id : ℕ) (logits : ℕ → ℚ) : ℕ → ℚ :=
  fun t => logits t - is_finished * eosPenaltyVec eos_id t

/-- Composite of the two logit-penalty stages (lines 163-174), applied after the
token penalty of line 158. -/
def penalizedLogits (step_idx min_len eos_id : ℕ) (is_finished : ℚ) (logits : ℕ → ℚ) : ℕ → ℚ :=
  applyFinishedBoost is_finished eos_id (applyMinLenPenalty step_idx min_len eos_id logits)

/-! ### Decoding while-loop control (generator.py, lines 121-123, 149-151, 271-273) -/

/-- Loop-control state of the decoding while loop: the shared scalar `step_idx`
(line 123, starting at 0) and the per-candidate finished flags
(`state["is_finished"]`). -/
structure GenLoopState where
  stepIdx : ℕ
  isFinished : List Bool
deriving DecidableEq, Repr

/-- Test of line 272: `reduce_all(cast(state["is_finished"], "bool"))`. -/
def allFinished (flags : List Bool) : Bool := flags.all (fun b => b)

/-- Iterations of the while loop (lines 151-273), given the per-step effect
`upd` of the model-state update on the finished flags (the model is an external
collaborator, so `upd` is a parameter).  `steps` is the list of step indices
still allowed by the bound `step_idx < max_len`; each iteration increments
`step_idx` by exactly 1 (line 221) and the loop continues exactly when the
recomputed condition `step_idx < max_len ∧ ¬ all finished` (lines 271-273)
holds.  The returned list is the trace of loop states after each iteration. -/
def runSteps (upd : ℕ → List Bool → List Bool) : List ℕ → List Bool → List GenLoopState
  | [], _ => []
  | i :: rest, fin =>
    let fin' := upd i fin
    ⟨i + 1, fin'⟩ :: (if allFinished fin' then [] else runSteps upd rest fin')

/-- Trace of loop-control states of `Generator.inference`: the initial state
`⟨0, init⟩` (line 123) followed by the state after every executed iteration.
The loop is entered only when the initial condition `step_idx < max_len`
(line 149) holds, i.e. when `0 < maxLen`. -/
def decodeTrace (upd : ℕ → List Bool → List Bool) (maxLen : ℕ) (init : List Bool) :
    List GenLoopState :=
  ⟨0, init⟩ :: runSteps upd (List.range maxLen) init

/-! ### Decoding-strategy dispatch and configuration surface
(generator.py, lines 40-42, 125, 181-214) -/

/-- Python's `str.startswith`, modelled on the character list of the string
(Lean's own `String.startsWith` is extensionally the same but does not reduce). -/
def strStartsWith (s p : String) : Bool := p.data.isPrefixOf s.data

/-- Admissible values of `--decoding_strategy` (lines 40-42, argparse `choices`). -/
def strategyChoices : List String := ["beam_search", "topk_sampling", "topp_sampling"]

/-- The four selection code paths of the step body. -/
inductive SelStrategy where
  | beam_search
  | sampling
  | topk_sampling
  | topp_sampling
deriving DecidableEq, Repr

/-- Dispatch on `self.decoding_strategy` inside the step body (lines 125 and
181-214): equality with "beam_search" first, then the three `startswith`
tests in source order; any other value reaches
`raise ValueError(self.decoding_strategy)` (line 214), modelled as `none`. -/
def selectStrategy (decoding_strategy : String) : Option SelStrategy :=
  if decoding_strategy = "beam_search" then some SelStrategy.beam_search
  else if strStartsWith decoding_strategy "sampling" then some SelStrategy.sampling
  else if strStartsWith decoding_strategy "topk_sampling" then some SelStrategy.topk_sampling
  else if strStartsWith decoding_strategy "topp_sampling" then some SelStrategy.topp_sampling
  else none

/-- Every configuration check the source performs before decoding starts:
argparse rejects a strategy outside `strategyChoices`, and graph construction
raises `ValueError` when the dispatch of lines 181-214 falls through.  The
source contains no validation that reads `topp` or `beam_size`, hence those
parameters are unused here. -/
def configRejected (decoding_strategy : String) (_topp : ℚ) (_beam_size : ℤ) : Bool :=
  !(strategyChoices.contains decoding_strategy) || (selectStrategy decoding_strategy).isNone

/-- Modelled from the spec (§6/§7): a configuration is valid when the strategy
is recognized, `topp ∈ (0, 1]` and `beam_size ≥ 1`; the spec claims everything
else fails fast. -/
def configValid_spec (decoding_strategy : String) (topp : ℚ) (beam_size : ℤ) : Prop :=
  decoding_strategy ∈ strategyChoices ∧ 0 < topp ∧ topp ≤ 1 ∧ 1 ≤ beam_size

/-! ### Top-p (nucleus) sampling (generator.py, lines 195-212) -/

/-- Descending-probability argsort of line 196
(`sorted_probs, sorted_idx = layers.argsort(probs, descending=True)`), modelled
as a stable insertion sort of the (index, probability) pairs; tie order among
equal probabilities is unspecified by the source. -/
def argsortDesc (probs : List ℚ) : List (ℕ × ℚ) :=
  List.insertionSort (fun a b => b.2 ≤ a.2) probs.enum

/-- Values component of the argsort (`sorted_probs`). -/
def sortedProbs (probs : List ℚ) : List ℚ := (argsortDesc probs).map Prod.snd

/-- Index component of the argsort (`sorted_idx`). -/
def sortedIdx (probs : List ℚ) : List ℕ := (argsortDesc probs).map Prod.fst

/-- Exclusive cumulative sum of line 197
(`cum_sorted_probs = layers.cumsum(sorted_probs, exclusive=True)`): entry `i`
is the sum of the entries before position `i`. -/
def exclusiveCumsum (l : List ℚ) : List ℚ := (List.scanl (· + ·) 0 l).dropLast

/-- Float cast of the comparison of lines 198-205
(`lt_cond = cast(less_than(cum_sorted_probs, topp))`). -/
def ltCondList (probs : List ℚ) (topp : ℚ) : List ℚ :=
  (exclusiveCumsum (sortedProbs probs)).map (fun c => if c < topp then 1 else 0)

/-- Kept probabilities of line 207 (`candidate_probs = sorted_probs * lt_cond`). -/
def candidateProbs (probs : List ℚ) (topp : ℚ) : List ℚ :=
  List.zipWith (· * ·) (sortedProbs probs) (ltCondList probs topp)

/-- Renormalized sampling distribution of line 208
(`probs = candidate_probs / reduce_sum(candidate_probs)`). -/
def renormProbs (probs : List ℚ) (topp : ℚ) : List ℚ :=
  (candidateProbs probs topp).map (fun p => p / (candidateProbs probs topp).sum)

/-- Back-mapping of lines 210-211: the rank `r` drawn by `sampling_id` from the
renormalized distribution is mapped to the original token id through the sort
permutation (`index_sample(sorted_idx, sampling_ids)`). -/
def toppSampledId (probs : List ℚ) (r : ℕ) : ℕ := (sortedIdx probs).getD r 0

/-- Original token ids whose sorted slot survives the `lt_cond` mask, i.e. the
candidate set of top-p sampling. -/
def toppKeptIds (probs : List ℚ) (topp : ℚ) : List ℕ :=
  (List.zipWith (fun i c => (i, c)) (sortedIdx probs) (ltCondList probs topp)).filterMap
    (fun p => if p.2 = (1 : ℚ) then some p.1 else none)

/-! ### One-hot pseudo-beam step for the sampling strategies
(generator.py, lines 216-218) -/

/-- Scores of lines 216-217:
`sampling_scores = one_hot(sampling_ids) * probs - (1 - one_hot(sampling_ids)) * 1e3`.
Here `probs` is the full (un-truncated) distribution, restored from `old_probs`
at lines 194 and 212 before this point. -/
def sampledScores (probs : List ℚ) (s : ℕ) : List ℚ :=
  probs.enum.map (fun q =>
    (if q.1 = s then (1 : ℚ) else 0) * q.2 - (1 - if q.1 = s then (1 : ℚ) else 0) * 1000)

/-- Accumulator loop of a `top-1` reduction over (index, value) pairs: keep the
current best, replace it only on a strictly larger value, so the first maximum
wins ties. -/
def topk1Go (cur : ℚ × ℕ) : List (ℕ × ℚ) → ℚ × ℕ
  | [] => cur
  | (i, v) :: rest => topk1Go (if cur.1 < v then (v, i) else cur) rest

/-- Top-1 reduction of line 218 (`topk_scores, topk_indices = topk(sampling_scores, k=1)`),
returning the (value, index) pair of the first maximum.  The vocabulary is
nonempty in any run (`topk` would fail otherwise); on `[]` a junk pair is
returned. -/
def topk1 (scores : List ℚ) : ℚ × ℕ :=
  match scores with
  | [] => (0, 0)
  | x :: rest => topk1Go (x, 0) (List.enumFrom 1 rest)

/-! ### Negative-sample mixing (nsp_reader.py, lines 53-99) -/

/-- Record produced by the NSP reader (the namedtuple built at line 40 from the
dialog-reader fields plus `label`).  `role_ids` is only populated when
`use_role` is configured; the namedtuple default (`None`) is modelled by `[]`. -/
structure NSPRecord where
  token_ids : List ℤ
  type_ids : List ℤ
  pos_ids : List ℤ
  role_ids : List ℤ
  tgt_start_idx : ℕ
  data_id : ℤ
  label : ℤ
deriving DecidableEq, Repr

instance : Inhabited NSPRecord := ⟨⟨[], [], [], [], 0, 0, 0⟩⟩

/-- Negative record built at lines 65-82 from the context of `ri` (up to its
`tgt_start_idx`) and the target of `rj` (from its `tgt_start_idx` on). -/
def negRecordOf (position_style : String) (use_role : Bool) (ri rj : NSPRecord) : NSPRecord :=
  let idx_i := ri.tgt_start_idx
  let idx_j := rj.tgt_start_idx
  let token_ids := ri.token_ids.take idx_i ++ rj.token_ids.drop idx_j
  { token_ids := token_ids
    type_ids := ri.type_ids.take idx_i ++ rj.type_ids.drop idx_j
    pos_ids :=
      if position_style = "continuous" then (List.range token_ids.length).map Int.ofNat
      else ri.pos_ids.take idx_i ++ rj.pos_ids.drop idx_j
    role_ids := if use_role then ri.role_ids.take idx_i ++ rj.role_ids.drop idx_j else []
    tgt_start_idx := idx_i
    data_id := -1
    label := 0 }

/-- Relabeling of the loop at lines 63-64: `pool[i] = pool[i]._replace(label=1)`
for every original pool member. -/
def relabeledPool (pool : List NSPRecord) : List NSPRecord :=
  pool.map (fun r => { r with label := 1 })

/-- Negative records appended by the loop at lines 63-83: for each `i`, a
negative built from member `i` and member `(i + 1) % num_samples`.  The labels
mutated during the loop do not feed into `negRecordOf`, so reading from the
original pool is faithful. -/
def negSamples (position_style : String) (use_role : Bool) (pool : List NSPRecord) :
    List NSPRecord :=
  (List.range pool.length).map (fun i =>
    negRecordOf position_style use_role (pool.getD i default)
      (pool.getD ((i + 1) % pool.length) default))

/-- The `_gen_from_pool` generator (lines 55-86).  When the pool holds a single
record, no negative partner exists and the record is yielded with `label = 1`
(lines 58-61).  Otherwise the pool is shuffled (`self.global_rng.shuffle`,
modelled by the parameter `shuffle1`), every original member is relabeled to 1
and paired with its cyclic successor to append a negative, and the grown pool
is shuffled again (`shuffle2`) before being yielded. -/
def genFromPool (shuffle1 shuffle2 : List NSPRecord → List NSPRecord)
    (position_style : String) (use_role : Bool) (pool : List NSPRecord) : List NSPRecord :=
  if pool.length = 1 then
    [{ pool.headD default with label := 1 }]
  else
    let pool1 := shuffle1 pool
    shuffle2 (relabeledPool pool1 ++ negSamples position_style use_role pool1)

/-! ## Theorems -/

/-- C1: every decoding step updates the cumulative score by the configured
policy with `L_prev` the step index before the step and `L_cur = L_prev + 1`:
length averaging gives `(ℓ + S_prev·L_prev)/L_cur`, else a positive
`length_penalty` gives `(ℓ + S_prev·lp(L_prev))/lp(L_cur)` with
`lp(L) = ((5+L)/6)^length_penalty`, else `ℓ + S_prev`, with priority
length_average > length_penalty > none — i.e. the source update coincides with
the spec's policy on all inputs; and under length averaging the per-step token
log-probabilities `[-1, -2, -1]` accumulate to `-4/3` after three steps. -/
theorem C1_score_update_policy :
    (∀ (length_average : Bool) (length_penalty topk_score pre_score pre_len : ℝ),
        accuScore length_average length_penalty topk_score pre_score pre_len =
          scoreUpdate_spec length_average length_penalty topk_score pre_score pre_len)
    ∧ accuScore true 0 (-1) (accuScore true 0 (-2) (accuScore true 0 (-1) 0 0) 1) 2
        = -(4 / 3) := by
  constructor
  · intro la lp ts ps pl
    rfl
  · norm_num [accuScore]

/-- C4 counterexample to the claim as stated: take a candidate with
`is_finished = 1` and previous cumulative score `0` whose selected proposal has
probability `0 < 1e-9`.  Lines 241-243 do substitute the frozen previous score
back in, but line 244 then overwrites the slot with `-1e9` because of the
small-probability indicator, so the score after the update differs from the
score before the step. -/
theorem C4_small_prob_overwrites_finished :
    stepAccuScore true 0 0 0 1 0 = -(10 ^ 9 : ℝ) ∧ (-(10 ^ 9 : ℝ)) ≠ (0 : ℝ) := by
  have hs : smallProbCond 0 = 1 := by
    simp only [smallProbCond]
    rw [if_pos (by norm_num)]
  refine ⟨?_, by norm_num⟩
  simp only [stepAccuScore, hs]
  ring

/-- C4 amended: for every candidate whose `is_finished` flag is set before a
step and whose selected proposal's probability is at least `1e-9`, the
cumulative score after the step's update (lines 225-244) equals the score it
had before the step; proposals below `1e-9` are instead overwritten with
`-1e9` by line 244 regardless of the finished flag. -/
theorem C4_finished_score_frozen (length_average : Bool)
    (length_penalty p pre_scores pre_len : ℝ) (hp : 1 / 10 ^ 9 ≤ p) :
    stepAccuScore length_average length_penalty p pre_scores 1 pre_len = pre_scores := by
  have hs : smallProbCond p = 0 := by
    simp only [smallProbCond]
    rw [if_neg (not_lt.mpr hp)]
  simp only [stepAccuScore, hs]
  ring

/-- Witness for C4: a finished candidate with previous score `-3` and proposal
probability `1 ≥ 1e-9` keeps the score `-3` through the update. -/
theorem C4_finished_score_frozen_witness :
    (1 / 10 ^ 9 : ℝ) ≤ 1 ∧ stepAccuScore true 0 1 (-3) 1 5 = -3 :=
  ⟨by norm_num, C4_finished_score_frozen true 0 1 (-3) 5 (by norm_num)⟩

/-- C5: while the step index is strictly below `min_dec_len`, the min-length
stage (lines 163-171) adds the `-1e9` logit penalty of lines 130-132 to the
end-of-sequence token and leaves every other token untouched, making the
end-of-sequence token effectively unselectable after softmax; at steps at or
after `min_dec_len` this stage applies no penalty at all. -/
theorem C5_min_length_eos_penalty (step_idx min_len eos_id : ℕ) (logits : ℕ → ℚ) :
    (step_idx < min_len →
      applyMinLenPenalty step_idx min_len eos_id logits eos_id = logits eos_id - 10 ^ 9
      ∧ ∀ t, t ≠ eos_id → applyMinLenPenalty step_idx min_len eos_id logits t = logits t)
    ∧ (min_len ≤ step_idx → applyMinLenPenalty step_idx min_len eos_id logits = logits) := by
  constructor
  · intro h
    constructor
    · simp only [applyMinLenPenalty, if_pos h, eosPenaltyVec, if_pos rfl, if_true,
        eq_self_iff_true]
      ring
    · intro t ht
      simp [applyMinLenPenalty, if_pos h, eosPenaltyVec, ht]
  · intro h
    simp [applyMinLenPenalty, Nat.not_lt.mpr h]

/-- Witness for C5 at `min_dec_len = 3`: the penalty hits the end-of-sequence
token (id 5) at steps 0, 1 and 2, and is gone at step 3. -/
theorem C5_min_length_eos_penalty_witness :
    (applyMinLenPenalty 0 3 5 (fun _ => 0) 5 = (0 : ℚ) - 10 ^ 9)
    ∧ (applyMinLenPenalty 1 3 5 (fun _ => 0) 5 = (0 : ℚ) - 10 ^ 9)
    ∧ (applyMinLenPenalty 2 3 5 (fun _ => 0) 5 = (0 : ℚ) - 10 ^ 9)
    ∧ applyMinLenPenalty 3 3 5 (fun _ => 0) = (fun _ => (0 : ℚ)) :=
  ⟨((C5_min_length_eos_penalty 0 3 5 (fun _ => 0)).1 (by decide)).1,
   ((C5_min_length_eos_penalty 1 3 5 (fun _ => 0)).1 (by decide)).1,
   ((C5_min_length_eos_penalty 2 3 5 (fun _ => 0)).1 (by decide)).1,
   (C5_min_length_eos_penalty 3 3 5 (fun _ => 0)).2 (by decide)⟩

/-- C6: a selected proposal with probability strictly below `1e-9` has exactly
`1e-9` passed to the logarithm, proposals at or above `1e-9` are passed
unchanged, and for any nonnegative probability the value reaching the
logarithm is positive — hence `log` never produces `-∞` and the underflow is
absorbed locally instead of propagating. -/
theorem C6_underflow_clamp (p : ℝ) :
    (p < 1 / 10 ^ 9 → clampProb p = 1 / 10 ^ 9)
    ∧ (1 / 10 ^ 9 ≤ p → clampProb p = p)
    ∧ (0 ≤ p → 0 < clampProb p) := by
  refine ⟨?_, ?_, ?_⟩
  · intro h
    simp only [clampProb, smallProbCond, if_pos h]
    ring
  · intro h
    simp only [clampProb, smallProbCond, if_neg (not_lt.mpr h)]
    ring
  · intro h
    by_cases hlt : p < 1 / 10 ^ 9
    · simp only [clampProb, smallProbCond, if_pos hlt]
      norm_num
    · simp only [clampProb, smallProbCond, if_neg hlt]
      push_neg at hlt
      nlinarith

/-- Witness for C6: probability 0 is clamped to `1e-9` and stays positive;
probability 1 passes through the clamp unchanged. -/
theorem C6_underflow_clamp_witness :
    clampProb 0 = 1 / 10 ^ 9 ∧ (0 : ℝ) < clampProb 0 ∧ clampProb 1 = 1 :=
  ⟨(C6_underflow_clamp 0).1 (by norm_num),
   (C6_underflow_clamp 0).2.2 le_rfl,
   (C6_underflow_clamp 1).2.1 (by norm_num)⟩

/-- C9: a pool containing exactly one record has no negative partner; the mixer
yields that single record with its label replaced by 1 and returns normally
(the function is total — no error path is taken). -/
theorem C9_singleton_pool_fallback (shuffle1 shuffle2 : List NSPRecord → List NSPRecord)
    (position_style : String) (use_role : Bool) (r : NSPRecord) :
    genFromPool shuffle1 shuffle2 position_style use_role [r] = [{ r with label := 1 }] := by
  simp [genFromPool]

/-- C10: for a candidate already finished at a step during the min-length phase
(`step_idx < min_dec_len`), the `-1e9` end-of-sequence penalty added by
lines 163-171 and the finished-candidate boost subtracted at lines 173-174
cancel exactly, leaving every logit (the end-of-sequence one included) at its
raw post-token-penalty value; only at steps at or after `min_dec_len` does the
boost force the finished candidate's end-of-sequence logit up by `1e9`. -/
theorem C10_finished_minlen_cancellation (step_idx min_len eos_id : ℕ) (logits : ℕ → ℚ) :
    (step_idx < min_len → penalizedLogits step_idx min_len eos_id 1 logits = logits)
    ∧ (min_len ≤ step_idx →
        penalizedLogits step_idx min_len eos_id 1 logits eos_id = logits eos_id + 10 ^ 9) := by
  constructor
  · intro h
    funext t
    simp only [penalizedLogits, applyFinishedBoost, applyMinLenPenalty, if_pos h]
    ring
  · intro h
    simp only [penalizedLogits, applyFinishedBoost, applyMinLenPenalty,
      if_neg (Nat.not_lt.mpr h), eosPenaltyVec, if_pos rfl, if_true, eq_self_iff_true]
    ring

/-- Witness for C10: with `min_dec_len = 3` and all raw logits equal to 2, a
finished candidate's logits are untouched at step 1, while at step 3 its
end-of-sequence logit is boosted to `2 + 1e9`. -/
theorem C10_finished_minlen_cancellation_witness :
    penalizedLogits 1 3 5 1 (fun _ => (2 : ℚ)) = (fun _ => (2 : ℚ))
    ∧ penalizedLogits 3 3 5 1 (fun _ => (2 : ℚ)) 5 = (2 : ℚ) + 10 ^ 9 :=
  ⟨(C10_finished_minlen_cancellation 1 3 5 (fun _ => (2 : ℚ))).1 (by decide),
   (C10_finished_minlen_cancellation 3 3 5 (fun _ => (2 : ℚ))).2 (by decide)⟩

/-- C8 counterexample to the claim as stated: the configuration
`decoding_strategy = "topp_sampling"`, `topp = 2`, `beam_size = 1` has `topp`
outside `(0, 1]`, yet every check the source performs accepts it, and the
top-p mask built with `topp = 2` silently keeps all tokens (the exclusive
cumulative sums of a distribution are below 2), degenerating to plain
sampling instead of failing fast. -/
theorem C8_topp_not_validated :
    ¬ configValid_spec "topp_sampling" 2 1
    ∧ configRejected "topp_sampling" 2 1 = false
    ∧ ltCondList [1/2, 1/2] 2 = [1, 1] := by
  refine ⟨?_, rfl, ?_⟩
  · intro hv
    exact absurd hv.2.2.1 (by norm_num)
  · norm_num [ltCondList, exclusiveCumsum, sortedProbs, argsortDesc, List.insertionSort,
      List.orderedInsert, List.scanl]

/-- C8 amended: the only configuration validation the source performs concerns
`decoding_strategy` — argparse restricts it to the three known choices, and the
step-body dispatch raises `ValueError` (during graph construction, before any
decoding step executes) for any value that is neither `"beam_search"` nor
prefixed by `sampling`/`topk_sampling`/`topp_sampling`; `topp` and `beam_size`
are never read by any validation, so out-of-range values for them are silently
accepted. -/
theorem C8_only_strategy_validated (s : String) (topp : ℚ) (beam_size : ℤ) :
    (s ≠ "beam_search" → strStartsWith s "sampling" = false →
      strStartsWith s "topk_sampling" = false → strStartsWith s "topp_sampling" = false →
      selectStrategy s = none ∧ configRejected s topp beam_size = true)
    ∧ configRejected "topp_sampling" topp beam_size = false := by
  constructor
  · intro h1 h2 h3 h4
    have hsel : selectStrategy s = none := by
      simp [selectStrategy, h1, h2, h3, h4]
    exact ⟨hsel, by simp [configRejected, hsel]⟩
  · rfl

/-- Witness for C8: the unknown strategy `"greedy_search"` is rejected by the
dispatch, while the `topp = 2`, `beam_size = 0` configuration passes. -/
theorem C8_only_strategy_validated_witness :
    selectStrategy "greedy_search" = none ∧ configRejected "greedy_search" 2 0 = true :=
  (C8_only_strategy_validated "greedy_search" 2 0).1 (by decide) (by decide) (by decide)
    (by decide)

/-- Helper: a nonempty step list always produces at least one trace state. -/
theorem runSteps_ne_nil (upd : ℕ → List Bool → List Bool) (i : ℕ) (rest : List ℕ)
    (fin : List Bool) : runSteps upd (i :: rest) fin ≠ [] := by
  simp [runSteps]

/-- Helper: over the step indices `range' a n`, the loop trace has at most `n`
states, the state after iteration `k` carries `step_idx = a + k + 1`, and the
final state either exhausted the step budget or has every candidate finished. -/
theorem runSteps_range'_spec (upd : ℕ → List Bool → List Bool) :
    ∀ (n a : ℕ) (fin : List Bool),
      ((runSteps upd (List.range' a n) fin).length ≤ n)
      ∧ (∀ (k : ℕ) (h : k < (runSteps upd (List.range' a n) fin).length),
          ((runSteps upd (List.range' a n) fin).get ⟨k, h⟩).stepIdx = a + k + 1)
      ∧ (∀ r, (runSteps upd (List.range' a n) fin).getLast? = some r →
          r.stepIdx = a + n ∨ allFinished r.isFinished = true) := by
  intro n
  induction n with
  | zero =>
    intro a fin
    refine ⟨by simp [runSteps], ?_, ?_⟩
    · intro k h
      simp [runSteps] at h
    · intro r hr
      simp [runSteps] at hr
  | succ m ih =>
    intro a fin
    rw [List.range'_succ]
    by_cases hfin : allFinished (upd a fin) = true
    · have hrw : runSteps upd (a :: List.range' (a + 1) m) fin =
          [⟨a + 1, upd a fin⟩] := by
        simp [runSteps, hfin]
      rw [hrw]
      refine ⟨by simp, ?_, ?_⟩
      · intro k h
        have hk : k = 0 := by
          simp only [List.length_cons, List.length_nil] at h
          omega
        subst hk
        simp
      · intro r hr
        have hx : (⟨a + 1, upd a fin⟩ : GenLoopState) = r := by
          have hsome : some (⟨a + 1, upd a fin⟩ : GenLoopState) = some r := by
            rw [← hr]
            rfl
          exact Option.some.inj hsome
        right
        rw [← hx]
        exact hfin
    · have hrw : runSteps upd (a :: List.range' (a + 1) m) fin =
          ⟨a + 1, upd a fin⟩ :: runSteps upd (List.range' (a + 1) m) (upd a fin) := by
        simp [runSteps, hfin]
      obtain ⟨ihlen, ihget, ihlast⟩ := ih (a + 1) (upd a fin)
      rw [hrw]
      refine ⟨?_, ?_, ?_⟩
      · simpa using Nat.add_le_add_left ihlen 1
      · intro k h
        cases k with
        | zero => simp
        | succ k' =>
          have h' : k' < (runSteps upd (List.range' (a + 1) m) (upd a fin)).length := by
            simp only [List.length_cons] at h
            omega
          simp only [List.get_cons_succ]
          rw [ihget k' h']
          omega
      · intro r hr
        cases hT : runSteps upd (List.range' (a + 1) m) (upd a fin) with
        | nil =>
          cases m with
          | zero =>
            rw [hT] at hr
            have hx : (⟨a + 1, upd a fin⟩ : GenLoopState) = r := by
              have hsome : some (⟨a + 1, upd a fin⟩ : GenLoopState) = some r := by
                rw [← hr]
                rfl
              exact Option.some.inj hsome
            left
            rw [← hx]
          | succ m' =>
            rw [List.range'_succ] at hT
            exact absurd hT (runSteps_ne_nil upd (a + 1) _ (upd a fin))
        | cons t T' =>
          rw [hT, List.getLast?_cons_cons, ← hT] at hr
          rcases ihlast r hr with h1 | h2
          · left; omega
          · right; exact h2

/-- C2: the decoding loop's trace starts at `step_idx = 0`, the state after
iteration `k` carries `step_idx = k` (so the index increases by exactly 1 per
iteration), every state of the run keeps `step_idx ∈ [0, max_dec_len]`, and the
final state satisfies `step_idx = max_dec_len` or "all candidates finished" —
whichever the loop condition hit first.  `decodeTrace` is a total function, so
every run terminates. -/
theorem C2_loop_termination (upd : ℕ → List Bool → List Bool) (maxLen : ℕ)
    (init : List Bool) :
    (∀ t ∈ decodeTrace upd maxLen init, t.stepIdx ≤ maxLen)
    ∧ (∀ (k : ℕ) (h : k < (decodeTrace upd maxLen init).length),
        ((decodeTrace upd maxLen init).get ⟨k, h⟩).stepIdx = k)
    ∧ (∀ r, (decodeTrace upd maxLen init).getLast? = some r →
        r.stepIdx = maxLen ∨ allFinished r.isFinished = true) := by
  obtain ⟨hlen, hget, hlast⟩ :=
    runSteps_range'_spec upd maxLen 0 init
  rw [← List.range_eq_range'] at hlen hget hlast
  refine ⟨?_, ?_, ?_⟩
  · intro t ht
    rcases List.mem_cons.mp ht with h0 | hmem
    · rw [h0]
      exact Nat.zero_le maxLen
    · obtain ⟨⟨k, hk⟩, hkt⟩ := List.mem_iff_get.mp hmem
      have := hget k hk
      have hkm : k < maxLen := lt_of_lt_of_le hk hlen
      rw [← hkt]
      omega
  · intro k h
    cases k with
    | zero => simp [decodeTrace]
    | succ k' =>
      have h' : k' < (runSteps upd (List.range maxLen) init).length := by
        simp only [decodeTrace, List.length_cons] at h
        omega
      simp only [decodeTrace, List.get_cons_succ]
      rw [hget k' h']
      omega
  · intro r hr
    cases hT : runSteps upd (List.range maxLen) init with
    | nil =>
      have hm : maxLen = 0 := by
        by_contra hne
        obtain ⟨m', hm'⟩ := Nat.exists_eq_succ_of_ne_zero hne
        rw [hm', List.range_succ_eq_map] at hT
        exact absurd hT (runSteps_ne_nil upd 0 _ init)
      subst hm
      simp only [decodeTrace] at hr
      rw [hT] at hr
      have hx : (⟨0, init⟩ : GenLoopState) = r := by
        have hsome : some (⟨0, init⟩ : GenLoopState) = some r := by
          rw [← hr]
          rfl
        exact Option.some.inj hsome
      left
      rw [← hx]
    | cons t T' =>
      simp only [decodeTrace] at hr
      rw [hT, List.getLast?_cons_cons, ← hT] at hr
      rcases hlast r hr with h1 | h2
      · left
        omega
      · right
        exact h2

/-- Witness for C2 on a concrete run: two allowed steps, one never-finishing
candidate; the state after iteration 1 carries step index 1, the state after
iteration 2 is within the bound, and the final state stops exactly at
`max_dec_len = 2`. -/
theorem C2_loop_termination_witness :
    ((decodeTrace (fun _ f => f) 2 [false]).get ⟨1, by decide⟩).stepIdx = 1
    ∧ (⟨2, [false]⟩ : GenLoopState).stepIdx ≤ 2
    ∧ ((⟨2, [false]⟩ : GenLoopState).stepIdx = 2 ∨ allFinished [false] = true) :=
  ⟨(C2_loop_termination (fun _ f => f) 2 [false]).2.1 1 (by decide),
   (C2_loop_termination (fun _ f => f) 2 [false]).1 ⟨2, [false]⟩ (by decide),
   (C2_loop_termination (fun _ f => f) 2 [false]).2.2 ⟨2, [false]⟩ (by decide)⟩

/-- Helper: the argsort preserves the number of tokens. -/
theorem length_argsortDesc (probs : List ℚ) : (argsortDesc probs).length = probs.length := by
  simp [argsortDesc, List.length_insertionSort, List.enum_length]

/-- Helper: `sorted_probs` has one entry per token. -/
theorem length_sortedProbs (probs : List ℚ) : (sortedProbs probs).length = probs.length := by
  simp [sortedProbs, length_argsortDesc]

/-- Helper: `sorted_idx` has one entry per token. -/
theorem length_sortedIdx (probs : List ℚ) : (sortedIdx probs).length = probs.length := by
  simp [sortedIdx, length_argsortDesc]

/-- Helper: the exclusive cumulative sum preserves length. -/
theorem length_exclusiveCumsum (l : List ℚ) : (exclusiveCumsum l).length = l.length := by
  simp [exclusiveCumsum, List.length_dropLast, List.length_scanl]

/-- Helper: the `lt_cond` mask has one entry per token. -/
theorem length_ltCondList (probs : List ℚ) (topp : ℚ) :
    (ltCondList probs topp).length = probs.length := by
  simp [ltCondList, length_exclusiveCumsum, length_sortedProbs]

/-- Helper: the masked probabilities have one entry per token. -/
theorem length_candidateProbs (probs : List ℚ) (topp : ℚ) :
    (candidateProbs probs topp).length = probs.length := by
  simp [candidateProbs, List.length_zipWith, length_sortedProbs, length_ltCondList]

/-- Helper: entrywise reading of `candidate_probs = sorted_probs * lt_cond`. -/
theorem candidateProbs_getD (probs : List ℚ) (topp : ℚ) (r : ℕ) (h : r < probs.length) :
    (candidateProbs probs topp).getD r 0 =
      (sortedProbs probs).getD r 0 * (ltCondList probs topp).getD r 0 := by
  have h1 : r < (sortedProbs probs).length := by rw [length_sortedProbs]; exact h
  have h2 : r < (ltCondList probs topp).length := by rw [length_ltCondList]; exact h
  simp [candidateProbs, List.getD_eq_getElem?_getD, List.getElem?_zipWith,
    List.getElem?_eq_getElem h1, List.getElem?_eq_getElem h2]

/-- Helper: entrywise reading of the `lt_cond` mask. -/
theorem ltCondList_getD (probs : List ℚ) (topp : ℚ) (r : ℕ) (h : r < probs.length) :
    (ltCondList probs topp).getD r 0 =
      if (exclusiveCumsum (sortedProbs probs)).getD r 0 < topp then 1 else 0 := by
  have hc : r < (exclusiveCumsum (sortedProbs probs)).length := by
    rw [length_exclusiveCumsum, length_sortedProbs]; exact h
  simp [ltCondList, List.getD_eq_getElem?_getD, List.getElem?_map,
    List.getElem?_eq_getElem hc]

/-- Helper: entrywise reading of the renormalization of line 208. -/
theorem renormProbs_getD (probs : List ℚ) (topp : ℚ) (r : ℕ) (h : r < probs.length) :
    (renormProbs probs topp).getD r 0 =
      (candidateProbs probs topp).getD r 0 / (candidateProbs probs topp).sum := by
  have hc : r < (candidateProbs probs topp).length := by
    rw [length_candidateProbs]; exact h
  simp [renormProbs, List.getD_eq_getElem?_getD, List.getElem?_map,
    List.getElem?_eq_getElem hc]

/-- Helper: a sum of elementwise quotients is the quotient of the sum. -/
theorem list_sum_map_div (l : List ℚ) (s : ℚ) :
    (l.map (fun p => p / s)).sum = l.sum / s := by
  induction l with
  | nil => simp
  | cons x xs ih => simp [ih, add_div]

/-- C3: top-p sampling can only draw a rank whose exclusive cumulative
probability (in descending sort order) is strictly below `topp` — every other
rank has renormalized probability 0 — the kept prefix is renormalized to a
distribution summing to 1, the drawn rank is mapped back to the original token
id through the sort permutation, and on the distribution
`{a: 0.5, b: 0.3, c: 0.15, d: 0.05}` with `topp = 0.9` the candidate set is
exactly `{a, b, c}` (original ids 0, 1, 2). -/
theorem C3_topp_nucleus (probs : List ℚ) (topp : ℚ) :
    (∀ r : ℕ, r < probs.length → (renormProbs probs topp).getD r 0 ≠ 0 →
      (exclusiveCumsum (sortedProbs probs)).getD r 0 < topp
      ∧ toppSampledId probs r = (sortedIdx probs).getD r 0)
    ∧ ((candidateProbs probs topp).sum ≠ 0 → (renormProbs probs topp).sum = 1)
    ∧ toppKeptIds [1/2, 3/10, 3/20, 1/20] (9/10) = [0, 1, 2] := by
  refine ⟨?_, ?_, ?_⟩
  · intro r hr hne
    refine ⟨?_, rfl⟩
    by_contra hge
    apply hne
    rw [renormProbs_getD probs topp r hr, candidateProbs_getD probs topp r hr,
      ltCondList_getD probs topp r hr, if_neg hge]
    simp
  · intro hS
    rw [renormProbs, list_sum_map_div, div_self hS]
  · norm_num [toppKeptIds, ltCondList, exclusiveCumsum, sortedProbs, sortedIdx,
      argsortDesc, List.insertionSort, List.orderedInsert, List.scanl, List.enum,
      List.enumFrom, List.filterMap, List.zipWith]

/-- Witness for C3 on the distribution `[1/2, 1/2]` with `topp = 3/4`: rank 0
has nonzero renormalized probability, so its exclusive cumulative sum is below
`topp`; the drawn rank maps back through the permutation; and the kept prefix
renormalizes to total mass 1. -/
theorem C3_topp_nucleus_witness :
    (exclusiveCumsum (sortedProbs [1/2, 1/2])).getD 0 0 < (3 : ℚ)/4
    ∧ toppSampledId [1/2, 1/2] 0 = (sortedIdx [1/2, 1/2]).getD 0 0
    ∧ (renormProbs [1/2, 1/2] (3/4)).sum = 1 := by
  have hlen : (0:ℕ) < ([1/2, 1/2] : List ℚ).length := by norm_num
  have hne : (renormProbs [1/2, 1/2] (3/4)).getD 0 0 ≠ 0 := by
    norm_num [renormProbs, candidateProbs, ltCondList, exclusiveCumsum, sortedProbs,
      argsortDesc, List.insertionSort, List.orderedInsert, List.scanl, List.enum,
      List.enumFrom, List.zipWith, List.getD]
  have hS : (candidateProbs [1/2, 1/2] (3/4)).sum ≠ 0 := by
    norm_num [candidateProbs, ltCondList, exclusiveCumsum, sortedProbs,
      argsortDesc, List.insertionSort, List.orderedInsert, List.scanl, List.enum,
      List.enumFrom, List.zipWith]
  obtain ⟨hcum, hid⟩ := (C3_topp_nucleus [1/2, 1/2] (3/4)).1 0 hlen hne
  exact ⟨hcum, hid, (C3_topp_nucleus [1/2, 1/2] (3/4)).2.1 hS⟩

/-- Helper: the top-1 accumulator never moves off `cur` when no later value
strictly exceeds it. -/
theorem topk1Go_of_le (l : List (ℕ × ℚ)) : ∀ cur : ℚ × ℕ, (∀ q ∈ l, ¬ cur.1 < q.2) →
    topk1Go cur l = cur := by
  induction l with
  | nil => intro cur _; rfl
  | cons q rest ih =>
    intro cur h
    obtain ⟨i, v⟩ := q
    have hv : ¬ cur.1 < v := h (i, v) (List.mem_cons_self _ _)
    simp only [topk1Go, if_neg hv]
    exact ih cur (fun q hq => h q (List.mem_cons_of_mem _ hq))

/-- Helper: the top-1 accumulator lands on the unique strict maximum. -/
theorem topk1Go_found (v : ℚ) (s : ℕ) :
    ∀ (pre : List (ℕ × ℚ)) (cur : ℚ × ℕ) (post : List (ℕ × ℚ)),
      (∀ q ∈ pre, ¬ cur.1 < q.2) → cur.1 < v → (∀ q ∈ post, ¬ v < q.2) →
      topk1Go cur (pre ++ (s, v) :: post) = (v, s) := by
  intro pre
  induction pre with
  | nil =>
    intro cur post _ h2 h3
    simp only [List.nil_append, topk1Go, if_pos h2]
    exact topk1Go_of_le post (v, s) h3
  | cons q rest ih =>
    intro cur post h1 h2 h3
    obtain ⟨i, w⟩ := q
    have hw : ¬ cur.1 < w := h1 (i, w) (List.mem_cons_self _ _)
    simp only [List.cons_append, topk1Go, if_neg hw]
    exact ih cur post (fun q hq => h1 q (List.mem_cons_of_mem _ hq)) h2 h3

/-- Helper: segments of the one-hot score vector away from the sampled index
are constantly `-1e3`. -/
theorem oneHotScore_out (s : ℕ) :
    ∀ (l : List ℚ) (k : ℕ), s < k ∨ k + l.length ≤ s →
      (List.enumFrom k l).map (fun q =>
          (if q.1 = s then (1 : ℚ) else 0) * q.2 -
            (1 - if q.1 = s then (1 : ℚ) else 0) * 1000)
        = List.replicate l.length (-1000) := by
  intro l
  induction l with
  | nil => intro k _; rfl
  | cons x rest ih =>
    intro k hk
    have hks : k ≠ s := by
      simp only [List.length_cons] at hk
      omega
    simp only [List.enumFrom_cons, List.map_cons, List.length_cons, List.replicate_succ]
    rw [if_neg hks, show (0 : ℚ) * x - (1 - 0) * 1000 = -1000 from by ring]
    congr 1
    apply ih (k + 1)
    simp only [List.length_cons] at hk
    omega

/-- Helper: values in an enumeration of a replicated list are the replicated
constant. -/
theorem snd_of_mem_enumFrom_replicate (c : ℚ) :
    ∀ (n k : ℕ) (q : ℕ × ℚ), q ∈ List.enumFrom k (List.replicate n c) → q.2 = c := by
  intro n
  induction n with
  | zero =>
    intro k q hq
    simp [List.replicate] at hq
  | succ m ih =>
    intro k q hq
    rw [List.replicate_succ, List.enumFrom_cons] at hq
    rcases List.mem_cons.mp hq with h | h
    · rw [h]
    · exact ih (k + 1) q h

/-- Helper: the one-hot score vector of lines 216-217, decomposed around the
sampled position, is `-1e3` everywhere except the sampled token's probability. -/
theorem sampledScores_decomp (a : List ℚ) (p : ℚ) (b : List ℚ) :
    sampledScores (a ++ p :: b) a.length =
      List.replicate a.length (-1000) ++ p :: List.replicate b.length (-1000) := by
  unfold sampledScores
  rw [show List.enum (a ++ p :: b) = List.enumFrom 0 (a ++ p :: b) from rfl,
    List.enumFrom_append, List.map_append, List.enumFrom_cons, List.map_cons]
  congr 1
  · exact oneHotScore_out a.length a 0 (Or.inr (by omega))
  congr 1
  · simp only [Nat.zero_add, eq_self_iff_true, if_true]
    ring
  · exact oneHotScore_out a.length b (0 + a.length + 1) (Or.inl (by omega))

/-- Helper: the top-1 reduction of a vector that is `-1e3` everywhere except a
single entry `p > -1e3` at position `s` returns `(p, s)`. -/
theorem topk1_oneHot_shape (p : ℚ) (hp : -1000 < p) (s m : ℕ) :
    topk1 (List.replicate s (-1000) ++ p :: List.replicate m (-1000)) = (p, s) := by
  cases s with
  | zero =>
    simp only [List.replicate, List.nil_append]
    show topk1Go (p, 0) (List.enumFrom 1 (List.replicate m (-1000))) = (p, 0)
    apply topk1Go_of_le
    intro q hq
    rw [snd_of_mem_enumFrom_replicate (-1000) m 1 q hq]
    exact not_lt.mpr hp.le
  | succ s' =>
    rw [List.replicate_succ, List.cons_append]
    show topk1Go (-1000, 0)
        (List.enumFrom 1 (List.replicate s' (-1000) ++ p :: List.replicate m (-1000)))
        = (p, s' + 1)
    rw [List.enumFrom_append, List.enumFrom_cons, List.length_replicate,
      Nat.add_comm 1 s']
    apply topk1Go_found
    · intro q hq
      rw [snd_of_mem_enumFrom_replicate (-1000) s' 1 q hq]
      exact lt_irrefl _
    · exact hp
    · intro q hq
      rw [snd_of_mem_enumFrom_replicate (-1000) m (s' + 1 + 1) q hq]
      exact not_lt.mpr hp.le

/-- C7: for the sampling strategies the truncated distribution is used only to
draw `sampling_ids`; the one-hot score vector of lines 216-217 is built from
the full distribution (`old_probs`, restored at lines 194 and 212), and the
top-1 reduction of line 218 — the sole candidate handed to the beam-search
merge with `beam_size = 1` — selects exactly the sampled token id, carrying
that token's probability under the full un-truncated softmax distribution. -/
theorem C7_one_hot_merge (probs : List ℚ) (s : ℕ) (hs : s < probs.length)
    (hp : ∀ q ∈ probs, 0 ≤ q) :
    topk1 (sampledScores probs s) = (probs.getD s 0, s) := by
  have h1 : probs.take s ++ probs[s] :: probs.drop (s + 1) = probs := by
    rw [← List.drop_eq_getElem_cons hs, List.take_append_drop]
  have hlen : (probs.take s).length = s := by
    rw [List.length_take]
    omega
  have hd := sampledScores_decomp (probs.take s) probs[s] (probs.drop (s + 1))
  rw [hlen] at hd
  have hgetD : probs.getD s 0 = probs[s] := by
    rw [List.getD_eq_getElem?_getD, List.getElem?_eq_getElem hs]
    rfl
  have hneg : -1000 < probs[s] := by
    have h0 : (0 : ℚ) ≤ probs[s] := hp probs[s] (List.getElem_mem hs)
    linarith
  rw [hgetD]
  calc topk1 (sampledScores probs s)
      = topk1 (sampledScores (probs.take s ++ probs[s] :: probs.drop (s + 1)) s) := by
        rw [h1]
    _ = topk1 (List.replicate s (-1000) ++
          probs[s] :: List.replicate (probs.drop (s + 1)).length (-1000)) := by
        rw [hd]
    _ = (probs[s], s) := topk1_oneHot_shape probs[s] hneg s _

/-- Witness for C7: with full distribution `[1/2, 1/2]` and sampled token 1,
the pseudo-beam step hands the merge the pair `(1/2, 1)` — the sampled id with
its full-distribution probability. -/
theorem C7_one_hot_merge_witness :
    topk1 (sampledScores [1/2, 1/2] 1) = (1/2, 1) := by
  have hg : ([1/2, 1/2] : List ℚ).getD 1 0 = 1/2 := by norm_num [List.getD]
  rw [← hg]
  exact C7_one_hot_merge [1/2, 1/2] 1 (by norm_num) (by norm_num)

end Knover
